import Mathlib

/-!
Shallow embedding of the duplex-sequencing core of `bin/parse_ssc.py`
(class `ParseSSC`), together with theorems checking the specification's
claims about it.

Conventions of the embedding:
* Python `dict`s keyed by reference position (or contig name) are modelled
  as insertion-ordered association lists; assignment `d[k] = v` is
  `insertAssoc`, which updates in place when the key is present and appends
  otherwise, exactly like a Python dict.
* The reference cache `self.refseq` is modelled as a lookup function
  `RefSeq`; a missing inner key corresponds to `none` (a Python `KeyError`).
* Fallible Python code (KeyError on a missing dict key, TypeError from
  `max(None, int)`) is modelled with `Except PyErr`.
* Python string slicing `s[a:b]` (negative indices count from the end,
  everything is clamped) is modelled by `pySlice`.
-/

set_option maxHeartbeats 1000000

namespace ParseSSC

/-- Runtime errors the modelled Python code can raise. -/
inductive PyErr where
  | keyErrorRefseq (ref_name : String) (pos : Nat)
  | keyErrorComplement (b : Char)
  | keyErrorField (f : String)
  | typeErrorMaxNone
deriving DecidableEq, Repr

/-- The `allowed_nucs` default argument: the set `{'A', 'T', 'C', 'G'}`. -/
def allowed_nucs : List Char := ['A', 'T', 'C', 'G']

/-- `complement(base)`: a dictionary lookup defined only on A/T/C/G; any
other key raises `KeyError`, modelled by `none`. -/
def complement (base : Char) : Option Char :=
  if base = 'A' then some 'T'
  else if base = 'T' then some 'A'
  else if base = 'C' then some 'G'
  else if base = 'G' then some 'C'
  else none

/-- `iupac(base1, base2)`: nested dictionary lookup with default `"N"`
(the source uses `.get(base1, {}).get(base2, "N")`). -/
def iupac (base1 base2 : Char) : Char :=
  match base1, base2 with
  | 'A', 'A' => 'A' | 'A', 'T' => 'W' | 'A', 'C' => 'M' | 'A', 'G' => 'R'
  | 'T', 'A' => 'W' | 'T', 'T' => 'T' | 'T', 'C' => 'Y' | 'T', 'G' => 'K'
  | 'C', 'A' => 'M' | 'C', 'T' => 'Y' | 'C', 'C' => 'C' | 'C', 'G' => 'S'
  | 'G', 'A' => 'R' | 'G', 'T' => 'K' | 'G', 'C' => 'S' | 'G', 'G' => 'G'
  | _, _ => 'N'

/-- Insertion-ordered association-list update, matching Python dict
assignment `d[k] = v`: overwrite in place if the key exists, else append. -/
def insertAssoc {κ α : Type} [DecidableEq κ] : List (κ × α) → κ → α → List (κ × α)
  | [], k, v => [(k, v)]
  | (k', v') :: rest, k, v =>
      if k' = k then (k, v) :: rest else (k', v') :: insertAssoc rest k v

/-- Association-list lookup, matching Python dict indexing / `.get`. -/
def lookupAssoc {κ α : Type} [DecidableEq κ] : List (κ × α) → κ → Option α
  | [], _ => none
  | (k', v') :: rest, k => if k' = k then some v' else lookupAssoc rest k

/-- `self.refseq`: lazily-populated two-level map `(contig, position) →
reference base`; `none` is a missing entry (a `KeyError` on direct access). -/
abbrev RefSeq : Type := String → Nat → Option Char

/-- Python slice index resolution for `s[i]`-style slice bounds: negative
values count from the end of the sequence, and everything is clamped to
`[0, len]`. -/
def pyIndex (len : Nat) (i : Int) : Nat :=
  if i < 0 then (max ((len : Int) + i) 0).toNat else min i.toNat len

/-- Python slicing `s[a:b]` with the default step of 1. -/
def pySlice {α : Type} (s : List α) (a b : Int) : List α :=
  let lo := pyIndex s.length a
  let hi := pyIndex s.length b
  (s.drop lo).take (hi - lo)

/-- Three-way `zip`, stopping at the shortest input (Python `zip`). -/
def zip3 {α β γ : Type} : List α → List β → List γ → List (α × β × γ)
  | a :: as, b :: bs, c :: cs => (a, b, c) :: zip3 as bs cs
  | _, _, _ => []

/-- A `ReadRecord` as produced by `parse_read`: contig, leftmost and
rightmost reference positions, and the sparse variant map
`refpos → query base`.  (`end` is a Lean keyword, so the field is `stop`.) -/
structure ReadDetails where
  ref_name : String
  start : Nat
  stop : Nat
  variants : List (Nat × Char)
deriving DecidableEq, Repr

/-- One entry of a `StrandConsensus` variant map: position relative to the
read (1-based, possibly computed from either mate), variant base, and the
cached reference base. -/
structure SscVariant where
  readpos : Int
  var : Char
  ref : Char
deriving DecidableEq, Repr

/-- A `StrandConsensus` (`self.ssc_info[family][strand]` after
`merge_read_pair` succeeded). -/
structure SscStrand where
  ref_name : String
  start : Nat
  stop : Nat
  cons : List Char
  variants : List (Nat × SscVariant)
deriving DecidableEq, Repr

/-- One entry of the DSC variant map: variant and reference base, both from
the positive strand. -/
structure DscVariant where
  var : Char
  ref : Char
deriving DecidableEq, Repr

/-- One entry of the DSC adduct map: which strand carries the adduct, plus
variant and reference base as recorded by the source. -/
structure DscAdduct where
  strand : String
  var : Char
  ref : Char
deriving DecidableEq, Repr

/-- A `DuplexConsensus` (`self.dsc_info[family]` after `merge_strands`). -/
structure Dsc where
  ref_name : String
  start : Nat
  stop : Nat
  cons : List Char
  nbases : Nat
  adducts : List (Nat × DscAdduct)
  variants : List (Nat × DscVariant)
  total_variants_and_adducts : Nat
  total_variants : Nat
deriving DecidableEq, Repr

/-- `self.base_positions`: the three per-read-position counters. -/
structure BasePositions where
  adducts : List (Nat × Nat)
  variants : List (Nat × Nat)
  nreads : List (Nat × Nat)
deriving DecidableEq, Repr

/-- `defaultdict(int)` increment: `d[k] += 1`. -/
def bumpAssoc (m : List (Nat × Nat)) (k : Nat) : List (Nat × Nat) :=
  insertAssoc m k ((lookupAssoc m k).getD 0 + 1)

/-- Result of `merge_read_pair` for one family-strand: either the pair was
dropped with a log entry, or a `StrandConsensus` was recorded. -/
inductive PairOutcome where
  | dropped
  | merged (s : SscStrand)
deriving DecidableEq, Repr

/-- Membership of a position in the covered-bases set
`set(range(fwd.start, fwd.end+1)) | set(range(rev.start, rev.end+1))`. -/
def covered (f r : ReadDetails) (pos : Nat) : Bool :=
  (decide (f.start ≤ pos) && decide (pos ≤ f.stop)) ||
  (decide (r.start ≤ pos) && decide (pos ≤ r.stop))

/-- The variant-aggregation loop of `merge_read_pair`, for the variants of
one read: each variant gets its read-relative position from `readpos_of`
and its reference base from a direct (KeyError-raising) `refseq` lookup,
then is written into the strand variant dict. -/
def add_variants (ref_name : String) (refseq : RefSeq) (readpos_of : Nat → Int) :
    List (Nat × Char) → List (Nat × SscVariant) → Except PyErr (List (Nat × SscVariant))
  | [], acc => .ok acc
  | (refpos, b) :: rest, acc =>
      match refseq ref_name refpos with
      | none => .error (.keyErrorRefseq ref_name refpos)
      | some r =>
          add_variants ref_name refseq readpos_of rest
            (insertAssoc acc refpos ⟨readpos_of refpos, b, r⟩)

/-- `merge_read_pair`: merge the forward and reverse reads of one strand of
one family.  `read_info`'s defaultdict pre-creates the `"fwd"`/`"rev"` keys
as empty dicts, so the source's membership check never fires; an absent
forward read is an empty dict, whose `["ref_name"]` access raises KeyError,
while an absent reverse read fails the contig comparison (`.get` returns
`None`) and is dropped with a log entry. -/
def merge_read_pair (fwd rev : Option ReadDetails) (refseq : RefSeq) :
    Except PyErr PairOutcome :=
  match fwd with
  | none => .error (.keyErrorField "ref_name")
  | some f =>
      if (rev.map ReadDetails.ref_name) ≠ some f.ref_name then .ok .dropped
      else
        match rev with
        | none => .ok .dropped
        | some r =>
            if f.start ≥ r.stop then .ok .dropped
            else
              match add_variants f.ref_name refseq
                  (fun refpos => (refpos : Int) - (f.start : Int) + 1) f.variants [] with
              | .error e => .error e
              | .ok v1 =>
                  match add_variants f.ref_name refseq
                      (fun refpos => (r.stop : Int) - (refpos : Int) + 1) r.variants v1 with
                  | .error e => .error e
                  | .ok v2 =>
                      let cons := (List.range' f.start (r.stop + 1 - f.start)).map (fun pos =>
                        if covered f r pos then
                          match lookupAssoc v2 pos with
                          | some sv => sv.var
                          | none => (refseq f.ref_name pos).getD 'N'
                        else 'N')
                      .ok (.merged
                        { ref_name := f.ref_name, start := f.start, stop := r.stop,
                          cons := cons, variants := v2 })

/-- Mutable state accumulated by the per-position loop of `merge_strands`:
the fields of `self.dsc_info[family_id]` being built, the growing
`cons_list`, and the shared `self.base_positions` counters. -/
structure MergeAcc where
  nbases : Nat
  adducts : List (Nat × DscAdduct)
  variants : List (Nat × DscVariant)
  total_variants_and_adducts : Nat
  total_variants : Nat
  cons_list : List Char
  bp : BasePositions
deriving DecidableEq, Repr

/-- One iteration of the classification loop of `merge_strands` (source
lines 471-565), at `refpos` with trimmed strand bases `pos_base` and
`neg_base`.  The `assert readpos > 0` of the source always holds (both
differences are non-negative for `refpos ∈ [start_pos, end_pos]`). -/
def process_pos (ref_name : String) (refseq : RefSeq) (start_pos end_pos : Nat)
    (acc : MergeAcc) (refpos : Nat) (pos_base neg_base : Char) :
    Except PyErr MergeAcc :=
  if pos_base ∉ allowed_nucs ∨ neg_base ∉ allowed_nucs then
    .ok { acc with cons_list := acc.cons_list ++ ['N'] }
  else
    match refseq ref_name refpos with
    | none => .error (.keyErrorRefseq ref_name refpos)
    | some refbase =>
        let readpos := min (refpos - start_pos) (end_pos - refpos) + 1
        let acc := { acc with
          nbases := acc.nbases + 1,
          bp := { acc.bp with nreads := bumpAssoc acc.bp.nreads readpos },
          cons_list := acc.cons_list ++ [iupac pos_base neg_base] }
        if refbase ∉ allowed_nucs then .ok acc
        else if pos_base ≠ refbase ∧ neg_base ≠ refbase then
          if pos_base = neg_base then
            .ok { acc with
              variants := insertAssoc acc.variants refpos ⟨pos_base, refbase⟩,
              bp := { acc.bp with variants := bumpAssoc acc.bp.variants readpos },
              total_variants_and_adducts := acc.total_variants_and_adducts + 1,
              total_variants := acc.total_variants + 1 }
          else
            match complement neg_base, complement refbase with
            | some cn, some cr =>
                .ok { acc with
                  variants := insertAssoc acc.variants refpos ⟨pos_base, refbase⟩,
                  adducts := insertAssoc acc.adducts refpos ⟨"neg", cn, cr⟩,
                  bp := { acc.bp with
                    variants := bumpAssoc acc.bp.variants readpos,
                    adducts := bumpAssoc acc.bp.adducts readpos },
                  total_variants_and_adducts := acc.total_variants_and_adducts + 1,
                  total_variants := acc.total_variants + 1 }
            | none, _ => .error (.keyErrorComplement neg_base)
            | _, none => .error (.keyErrorComplement refbase)
        else if pos_base ≠ refbase then
          .ok { acc with
            adducts := insertAssoc acc.adducts refpos ⟨"pos", pos_base, refbase⟩,
            bp := { acc.bp with adducts := bumpAssoc acc.bp.adducts readpos },
            total_variants_and_adducts := acc.total_variants_and_adducts + 1 }
        else if neg_base ≠ refbase then
          match complement neg_base, complement refbase with
          | some cn, some cr =>
              .ok { acc with
                adducts := insertAssoc acc.adducts refpos ⟨"neg", cn, cr⟩,
                bp := { acc.bp with adducts := bumpAssoc acc.bp.adducts readpos },
                total_variants_and_adducts := acc.total_variants_and_adducts + 1 }
          | none, _ => .error (.keyErrorComplement neg_base)
          | _, none => .error (.keyErrorComplement refbase)
        else .ok acc

/-- The whole classification loop: left fold of `process_pos` over the
zipped `(refpos, pos_base, neg_base)` triples. -/
def process_all (ref_name : String) (refseq : RefSeq) (start_pos end_pos : Nat) :
    MergeAcc → List (Nat × Char × Char) → Except PyErr MergeAcc
  | acc, [] => .ok acc
  | acc, (refpos, pb, nb) :: rest =>
      match process_pos ref_name refseq start_pos end_pos acc refpos pb nb with
      | .error e => .error e
      | .ok acc' => process_all ref_name refseq start_pos end_pos acc' rest

/-- `merge_strands`: merge the two strand consensuses of one family into a
`Dsc`.  A strand whose `merge_read_pair` was dropped is the defaultdict
entry with all fields `None` (modelled `none`); the source then evaluates
`max(None, int)`, a `TypeError`.  The strand consensuses are trimmed with
Python slices `cons[strand.start - start_pos : len(cons) - (strand.end -
end_pos)]` (note the possibly negative left index) and upper-cased. -/
def merge_strands (posS negS : Option SscStrand) (refseq : RefSeq)
    (bp : BasePositions) : Except PyErr (Dsc × BasePositions) :=
  match posS, negS with
  | some p, some n =>
      let start_pos := max p.start n.start
      let end_pos := min p.stop n.stop
      let pos_cons := (pySlice p.cons ((p.start : Int) - (start_pos : Int))
        ((p.cons.length : Int) - ((p.stop : Int) - (end_pos : Int)))).map Char.toUpper
      let neg_cons := (pySlice n.cons ((n.start : Int) - (start_pos : Int))
        ((n.cons.length : Int) - ((n.stop : Int) - (end_pos : Int)))).map Char.toUpper
      let ref_name := p.ref_name
      let init : MergeAcc :=
        { nbases := 0, adducts := [], variants := [],
          total_variants_and_adducts := 0, total_variants := 0,
          cons_list := [], bp := bp }
      match process_all ref_name refseq start_pos end_pos init
          (zip3 (List.range' start_pos (end_pos + 1 - start_pos)) pos_cons neg_cons) with
      | .error e => .error e
      | .ok acc =>
          .ok ({ ref_name := ref_name, start := start_pos, stop := end_pos,
                 cons := acc.cons_list, nbases := acc.nbases,
                 adducts := acc.adducts, variants := acc.variants,
                 total_variants_and_adducts := acc.total_variants_and_adducts,
                 total_variants := acc.total_variants }, acc.bp)
  | _, _ => .error .typeErrorMaxNone

/-- The two legal values of the `filter_on` CLI argument (asserted by the
source on startup). -/
inductive FilterOn where
  | total_variants
  | total_variants_and_adducts
deriving DecidableEq, Repr

/-- `dsc[self.filter_on]`: the metric the filter compares against. -/
def filter_metric (d : Dsc) : FilterOn → Nat
  | .total_variants => d.total_variants
  | .total_variants_and_adducts => d.total_variants_and_adducts

/-- The `keep_families` set built by `write_output`: families whose chosen
metric does not exceed `max_vars` (`none` keeps everything). -/
def keep_families (dsc_info : List (String × Dsc)) (filter_on : FilterOn)
    (max_vars : Option Nat) : List String :=
  (dsc_info.filter (fun fd =>
    match max_vars with
    | none => true
    | some t => decide (filter_metric fd.2 filter_on ≤ t))).map Prod.fst

/-- One row of `chr_counts`: the per-contig counters of `format_summary`
(`defaultdict(int)`, so every field defaults to zero). -/
structure ChrEntry where
  families : Nat := 0
  bases : Nat := 0
  variants : Nat := 0
  adducts : Nat := 0
deriving DecidableEq, Repr

/-- The numeric part of the structures built by `format_summary`:
`total_counts`, `chr_counts` and the two base-change tables.  (The
`specimen` string field and the pandas DataFrame formatting are output
plumbing and are not modelled.) -/
structure SummaryCounts where
  ssc : Nat := 0
  bases : Nat := 0
  variants : Nat := 0
  adducts : Nat := 0
  by_chr : List (String × ChrEntry) := []
  variant_base_changes : List ((Char × Char) × Nat) := []
  adduct_base_changes : List ((Char × Char) × Nat) := []
deriving DecidableEq, Repr

/-- Read a row of `chr_counts`; a missing contig is the zero row. -/
def chr_get (m : List (String × ChrEntry)) (c : String) : ChrEntry :=
  (lookupAssoc m c).getD {}

/-- Update one row of `chr_counts` in place. -/
def bump_chr (m : List (String × ChrEntry)) (c : String) (f : ChrEntry → ChrEntry) :
    List (String × ChrEntry) :=
  insertAssoc m c (f (chr_get m c))

/-- `defaultdict(int)` increment of a base-change cell `d[var][ref] += 1`. -/
def bump_change (m : List ((Char × Char) × Nat)) (k : Char × Char) :
    List ((Char × Char) × Nat) :=
  insertAssoc m k ((lookupAssoc m k).getD 0 + 1)

/-- Body of the per-variant loop of `format_summary`. -/
def tally_variant (rn : String) (acc : SummaryCounts) (pv : Nat × DscVariant) :
    SummaryCounts :=
  { acc with
    variants := acc.variants + 1,
    by_chr := bump_chr acc.by_chr rn (fun e => { e with variants := e.variants + 1 }),
    variant_base_changes := bump_change acc.variant_base_changes (pv.2.var, pv.2.ref) }

/-- Body of the per-adduct loop of `format_summary`: note that it increments
the `adducts` totals a second time, on top of the `len(dsc['adducts'])`
added in the family header. -/
def tally_adduct (rn : String) (acc : SummaryCounts) (pa : Nat × DscAdduct) :
    SummaryCounts :=
  { acc with
    adducts := acc.adducts + 1,
    by_chr := bump_chr acc.by_chr rn (fun e => { e with adducts := e.adducts + 1 }),
    adduct_base_changes := bump_change acc.adduct_base_changes (pa.2.var, pa.2.ref) }

/-- Body of the families loop of `format_summary`, for one kept family. -/
def tally_family (acc : SummaryCounts) (d : Dsc) : SummaryCounts :=
  let a1 := { acc with
    ssc := acc.ssc + 1,
    by_chr := bump_chr acc.by_chr d.ref_name
      (fun e => { e with families := e.families + 1 }) }
  let a2 := { a1 with
    bases := a1.bases + d.nbases,
    by_chr := bump_chr a1.by_chr d.ref_name
      (fun e => { e with bases := e.bases + d.nbases }) }
  let a3 := { a2 with
    adducts := a2.adducts + d.adducts.length,
    by_chr := bump_chr a2.by_chr d.ref_name
      (fun e => { e with adducts := e.adducts + d.adducts.length }) }
  let a4 := d.variants.foldl (tally_variant d.ref_name) a3
  d.adducts.foldl (tally_adduct d.ref_name) a4

/-- `format_summary`: roll the kept families of the DSC map into the
summary counters (families not in `keep_families` are skipped). -/
def format_summary (dsc_info : List (String × Dsc)) (keep : List String) :
    SummaryCounts :=
  dsc_info.foldl (fun acc fd => if fd.1 ∈ keep then tally_family acc fd.2 else acc) {}

/-! ### Definitions written from the specification's words

These are the spec side of the refinement claims; they are compared with
the code-derived definitions above, never used inside them. -/

/-- From the spec: "`complement`: A↔T, C↔G", written as a total function on
the bases the spec's table applies it to. -/
def spec_complement (b : Char) : Char :=
  if b = 'A' then 'T'
  else if b = 'T' then 'A'
  else if b = 'C' then 'G'
  else if b = 'G' then 'C'
  else b

/-- From the spec's classification table (§4.3), rows 3-7: the variant, if
any, emitted at a position with bases `P`, `N` and reference `R`, all in
A/T/C/G. -/
def spec_variant_of (P N R : Char) : Option DscVariant :=
  if P ≠ R ∧ N ≠ R then some ⟨P, R⟩ else none

/-- From the spec's classification table (§4.3), rows 3-7: the adduct, if
any, emitted at a position with bases `P`, `N` and reference `R`, all in
A/T/C/G. -/
def spec_adduct_of (P N R : Char) : Option DscAdduct :=
  if P ≠ R ∧ N ≠ R ∧ P ≠ N then some ⟨"neg", spec_complement N, spec_complement R⟩
  else if P ≠ R ∧ N = R then some ⟨"pos", P, R⟩
  else if P = R ∧ N ≠ R then some ⟨"neg", spec_complement N, spec_complement R⟩
  else none

/-! ### Helpers for stating the claims, and concrete inputs for witnesses
and counterexamples -/

/-- Count of adducts recorded at positions that carry no variant — exactly
the adducts of the strand-only-mismatch cases 6 and 7 of the table. -/
def strand_only_count (variants : List (Nat × DscVariant))
    (adducts : List (Nat × DscAdduct)) : Nat :=
  (adducts.filter (fun pa => (lookupAssoc variants pa.1).isNone)).length

/-- Whether a `merge_strands` run aborted on the failure branch of
`complement` (a `KeyError` raised inside the classification loop). -/
def is_complement_error : Except PyErr (Dsc × BasePositions) → Bool
  | .error (.keyErrorComplement _) => true
  | _ => false

/-- Placeholder DSC used to project out of an `Except` result. -/
def emptyDsc : Dsc :=
  { ref_name := "", start := 0, stop := 0, cons := [], nbases := 0,
    adducts := [], variants := [], total_variants_and_adducts := 0,
    total_variants := 0 }

/-- Project the DSC out of a `merge_strands` result. -/
def dsc_of (r : Except PyErr (Dsc × BasePositions)) : Dsc :=
  match r with
  | .ok (d, _) => d
  | .error _ => emptyDsc

/-- Project the base-position counters out of a `merge_strands` result. -/
def bp_of (r : Except PyErr (Dsc × BasePositions)) : BasePositions :=
  match r with
  | .ok (_, b) => b
  | .error _ => ⟨[], [], []⟩

/-- Project the strand consensus out of a `merge_read_pair` result. -/
def ssc_of (r : Except PyErr PairOutcome) : SscStrand :=
  match r with
  | .ok (.merged s) => s
  | _ => { ref_name := "", start := 0, stop := 0, cons := [], variants := [] }

/-- A fresh `MergeAcc`, as at the top of a `merge_strands` call. -/
def empty_acc : MergeAcc :=
  { nbases := 0, adducts := [], variants := [],
    total_variants_and_adducts := 0, total_variants := 0,
    cons_list := [], bp := ⟨[], [], []⟩ }

/-- Reference cache holding "ACGT" at chr1 positions 100-103. -/
def rs_acgt : RefSeq := fun c p =>
  if c = "chr1" then
    if p = 100 then some 'A'
    else if p = 101 then some 'C'
    else if p = 102 then some 'G'
    else if p = 103 then some 'T'
    else none
  else none

/-- C3 failing input: reference all-'A' over chr1 positions 0-10. -/
def c3_refseq : RefSeq := fun c p =>
  if c = "chr1" ∧ p ≤ 10 then some 'A' else none

/-- C3 failing input: positive strand spanning [5, 10], all reference. -/
def c3_pos : SscStrand :=
  { ref_name := "chr1", start := 5, stop := 10,
    cons := List.replicate 6 'A', variants := [] }

/-- C3 failing input: negative strand spanning [0, 10], all reference. -/
def c3_neg : SscStrand :=
  { ref_name := "chr1", start := 0, stop := 10,
    cons := List.replicate 11 'A', variants := [] }

/-- C4 failing input: a reverse read present while the forward read of the
same family-strand is absent (an empty dict in `read_info`). -/
def c4_rev : ReadDetails :=
  { ref_name := "chr1", start := 100, stop := 103, variants := [] }

/-- C4 failing input: a merged positive strand whose partner strand was
dropped (so its `ssc_info` entry still holds all-`None` fields). -/
def c4_pos : SscStrand :=
  { ref_name := "chr1", start := 100, stop := 103,
    cons := ['A', 'C', 'G', 'T'], variants := [] }

/-- C5 counterexample input (spec §8 scenario 5): positive strand reads
"ATGT" over chr1 [100, 103]. -/
def c5_pos : SscStrand :=
  { ref_name := "chr1", start := 100, stop := 103,
    cons := ['A', 'T', 'G', 'T'], variants := [] }

/-- C5 counterexample input: negative strand reads "AGGT". -/
def c5_neg : SscStrand :=
  { ref_name := "chr1", start := 100, stop := 103,
    cons := ['A', 'G', 'G', 'T'], variants := [] }

/-- The DSC produced for the C5 counterexample family. -/
def c5_dsc : Dsc :=
  dsc_of (merge_strands (some c5_pos) (some c5_neg) rs_acgt ⟨[], [], []⟩)

/-- C6 counterexample input (spec §8 scenario 4): positive strand reads
"ACGT" (pure reference) over chr1 [100, 103]. -/
def c6_pos : SscStrand :=
  { ref_name := "chr1", start := 100, stop := 103,
    cons := ['A', 'C', 'G', 'T'], variants := [] }

/-- C6 counterexample input: negative strand reads "ACCT" (G→C at 102). -/
def c6_neg : SscStrand :=
  { ref_name := "chr1", start := 100, stop := 103,
    cons := ['A', 'C', 'C', 'T'], variants := [] }

/-- The DSC produced for the C6 counterexample family. -/
def c6_dsc : Dsc :=
  dsc_of (merge_strands (some c6_pos) (some c6_neg) rs_acgt ⟨[], [], []⟩)

/-- C2 witness input: positive strand "ATGA" (case 5 at 101, case 6 at
103). -/
def w2_pos : SscStrand :=
  { ref_name := "chr1", start := 100, stop := 103,
    cons := ['A', 'T', 'G', 'A'], variants := [] }

/-- C2 witness input: negative strand "AGGT". -/
def w2_neg : SscStrand :=
  { ref_name := "chr1", start := 100, stop := 103,
    cons := ['A', 'G', 'G', 'T'], variants := [] }

/-- The DSC produced for the C2 witness family. -/
def w2_dsc : Dsc :=
  dsc_of (merge_strands (some w2_pos) (some w2_neg) rs_acgt ⟨[], [], []⟩)

/-- The base-position counters produced for the C2 witness family. -/
def w2_bp : BasePositions :=
  bp_of (merge_strands (some w2_pos) (some w2_neg) rs_acgt ⟨[], [], []⟩)

/-- C6 witness family: same run as the C2 witness but named apart (it
exercises both a variant and a positive-strand adduct). -/
def w6_dsc : Dsc :=
  dsc_of (merge_strands (some w2_pos) (some w2_neg) rs_acgt ⟨[], [], []⟩)

/-- C6 witness: the counters of the same run. -/
def w6_bp : BasePositions :=
  bp_of (merge_strands (some w2_pos) (some w2_neg) rs_acgt ⟨[], [], []⟩)

/-- C7 witness input: forward read over [100, 102] with variant G at 101. -/
def w7_fwd : ReadDetails :=
  { ref_name := "chr1", start := 100, stop := 102, variants := [(101, 'G')] }

/-- C7 witness input: reverse read over [101, 103] with variants T at 101
(overwriting the forward call) and A at 103. -/
def w7_rev : ReadDetails :=
  { ref_name := "chr1", start := 101, stop := 103,
    variants := [(101, 'T'), (103, 'A')] }

/-- The strand consensus produced for the C7 witness read pair. -/
def w7_ssc : SscStrand :=
  ssc_of (merge_read_pair (some w7_fwd) (some w7_rev) rs_acgt)

/-- C8 witness: a family with zero variants. -/
def w8_d0 : Dsc :=
  { ref_name := "chr1", start := 0, stop := 3, cons := [], nbases := 4,
    adducts := [], variants := [], total_variants_and_adducts := 0,
    total_variants := 0 }

/-- C8 witness: a family with three variants. -/
def w8_d3 : Dsc :=
  { ref_name := "chr1", start := 0, stop := 3, cons := [], nbases := 4,
    adducts := [], variants := [], total_variants_and_adducts := 3,
    total_variants := 3 }

/-- C8 witness: a two-family DSC map. -/
def w8_info : List (String × Dsc) := [("F1", w8_d0), ("F2", w8_d3)]

/-- C1 witness: a reference cache defined only at chr1 position 101. -/
def w1_refseq : RefSeq := fun c p =>
  if c = "chr1" ∧ p = 101 then some 'C' else none

/-- Invariant of the classification fold of `merge_strands`: the counter
equalities, bounds on the recorded keys, and per-entry facts that claims
C2, C5 and C6 are about.  `bound` is a strict upper bound on every key
recorded so far. -/
structure AccInv (ref_name : String) (refseq : RefSeq) (bound : Nat)
    (acc : MergeAcc) : Prop where
  tv_eq : acc.total_variants = acc.variants.length
  tva_eq : acc.total_variants_and_adducts =
    acc.variants.length + strand_only_count acc.variants acc.adducts
  var_lt : ∀ pv ∈ acc.variants, pv.1 < bound
  add_lt : ∀ pa ∈ acc.adducts, pa.1 < bound
  pos_no_var : ∀ pa ∈ acc.adducts, pa.2.strand = "pos" →
    lookupAssoc acc.variants pa.1 = none
  var_ref : ∀ pv ∈ acc.variants, refseq ref_name pv.1 = some pv.2.ref
  add_ref : ∀ pa ∈ acc.adducts,
    (pa.2.strand = "pos" ∧ refseq ref_name pa.1 = some pa.2.ref) ∨
    (pa.2.strand = "neg" ∧ ∃ r, refseq ref_name pa.1 = some r ∧
      complement r = some pa.2.ref)

/-! ## Association-list lemmas -/

theorem lookupAssoc_insertAssoc_self {κ α : Type} [DecidableEq κ]
    (m : List (κ × α)) (k : κ) (v : α) :
    lookupAssoc (insertAssoc m k v) k = some v := by
  induction m with
  | nil => simp [insertAssoc, lookupAssoc]
  | cons hd tl ih =>
      obtain ⟨k', v'⟩ := hd
      by_cases h : k' = k
      · subst h
        simp [insertAssoc, lookupAssoc]
      · simp [insertAssoc, lookupAssoc, h, ih]

theorem lookupAssoc_insertAssoc_ne {κ α : Type} [DecidableEq κ]
    (m : List (κ × α)) (k k' : κ) (v : α) (hne : k ≠ k') :
    lookupAssoc (insertAssoc m k v) k' = lookupAssoc m k' := by
  induction m with
  | nil => simp [insertAssoc, lookupAssoc, hne]
  | cons hd tl ih =>
      obtain ⟨k0, v0⟩ := hd
      by_cases h0 : k0 = k
      · subst h0
        simp [insertAssoc, lookupAssoc, hne]
      · by_cases h1 : k0 = k'
        · subst h1
          simp [insertAssoc, lookupAssoc, h0]
        · simp [insertAssoc, lookupAssoc, h0, h1, ih]

theorem lookupAssoc_eq_none_of_not_mem {κ α : Type} [DecidableEq κ]
    (m : List (κ × α)) (k : κ) (h : k ∉ m.map Prod.fst) :
    lookupAssoc m k = none := by
  induction m with
  | nil => rfl
  | cons hd tl ih =>
      obtain ⟨k0, v0⟩ := hd
      rw [List.map_cons, List.mem_cons] at h
      push_neg at h
      obtain ⟨h1, h2⟩ := h
      simp [lookupAssoc, Ne.symm h1, ih h2]

theorem insertAssoc_eq_append_of_not_mem {κ α : Type} [DecidableEq κ]
    (m : List (κ × α)) (k : κ) (v : α) (h : k ∉ m.map Prod.fst) :
    insertAssoc m k v = m ++ [(k, v)] := by
  induction m with
  | nil => rfl
  | cons hd tl ih =>
      obtain ⟨k0, v0⟩ := hd
      rw [List.map_cons, List.mem_cons] at h
      push_neg at h
      obtain ⟨h1, h2⟩ := h
      simp [insertAssoc, Ne.symm h1, ih h2]

theorem length_insertAssoc_fresh {κ α : Type} [DecidableEq κ]
    (m : List (κ × α)) (k : κ) (v : α) (h : k ∉ m.map Prod.fst) :
    (insertAssoc m k v).length = m.length + 1 := by
  rw [insertAssoc_eq_append_of_not_mem m k v h]
  simp

theorem assoc_value_unique {κ α : Type} [DecidableEq κ] :
    ∀ (m : List (κ × α)), (m.map Prod.fst).Nodup →
      ∀ {k : κ} {a b : α}, (k, a) ∈ m → (k, b) ∈ m → a = b := by
  intro m
  induction m with
  | nil =>
      intro _ k a b ha
      simp at ha
  | cons hd tl ih =>
      intro hnd k a b ha hb
      obtain ⟨k0, v0⟩ := hd
      rw [List.map_cons, List.nodup_cons] at hnd
      obtain ⟨hk0, hnd'⟩ := hnd
      rcases List.mem_cons.mp ha with ha' | ha'
      · injection ha' with ha1 ha2
        subst ha1
        subst ha2
        rcases List.mem_cons.mp hb with hb' | hb'
        · injection hb' with hb1 hb2
          exact hb2.symm
        · exact absurd (List.mem_map_of_mem Prod.fst hb') hk0
      · rcases List.mem_cons.mp hb with hb' | hb'
        · injection hb' with hb1 hb2
          subst hb1
          exact absurd (List.mem_map_of_mem Prod.fst ha') hk0
        · exact ih hnd' ha' hb'

theorem complement_of_mem (b : Char) (hb : b ∈ allowed_nucs) :
    complement b = some (spec_complement b) := by
  simp only [allowed_nucs, List.mem_cons, List.mem_singleton,
    List.not_mem_nil, or_false] at hb
  rcases hb with rfl | rfl | rfl | rfl <;> rfl

/-! ## Lemmas about `strand_only_count` -/

theorem strand_only_count_insert_var (variants : List (Nat × DscVariant))
    (adducts : List (Nat × DscAdduct)) (refpos : Nat) (v : DscVariant)
    (h : ∀ pa ∈ adducts, pa.1 ≠ refpos) :
    strand_only_count (insertAssoc variants refpos v) adducts =
      strand_only_count variants adducts := by
  unfold strand_only_count
  congr 1
  apply List.filter_congr
  intro pa hpa
  rw [lookupAssoc_insertAssoc_ne variants refpos pa.1 v (Ne.symm (h pa hpa))]

theorem strand_only_count_append_adduct (variants : List (Nat × DscVariant))
    (adducts : List (Nat × DscAdduct)) (refpos : Nat) (a : DscAdduct) :
    strand_only_count variants (adducts ++ [(refpos, a)]) =
      strand_only_count variants adducts +
        (if (lookupAssoc variants refpos).isNone then 1 else 0) := by
  unfold strand_only_count
  rw [List.filter_append]
  by_cases h : (lookupAssoc variants refpos).isNone <;>
    simp [List.filter, h]

/-! ## The invariant is preserved by each loop iteration -/

theorem process_pos_inv {ref_name : String} {refseq : RefSeq}
    {start_pos end_pos bound refpos : Nat} {acc acc' : MergeAcc} {pb nb : Char}
    (hinv : AccInv ref_name refseq bound acc) (hb : bound ≤ refpos)
    (h : process_pos ref_name refseq start_pos end_pos acc refpos pb nb = .ok acc') :
    AccInv ref_name refseq (refpos + 1) acc' := by
  have hvlt : ∀ pv ∈ acc.variants, pv.1 < refpos + 1 :=
    fun pv hpv => Nat.lt_succ_of_lt (lt_of_lt_of_le (hinv.var_lt pv hpv) hb)
  have halt : ∀ pa ∈ acc.adducts, pa.1 < refpos + 1 :=
    fun pa hpa => Nat.lt_succ_of_lt (lt_of_lt_of_le (hinv.add_lt pa hpa) hb)
  have hvne : ∀ pv ∈ acc.variants, pv.1 ≠ refpos :=
    fun pv hpv => Nat.ne_of_lt (lt_of_lt_of_le (hinv.var_lt pv hpv) hb)
  have hane : ∀ pa ∈ acc.adducts, pa.1 ≠ refpos :=
    fun pa hpa => Nat.ne_of_lt (lt_of_lt_of_le (hinv.add_lt pa hpa) hb)
  have hvfresh : refpos ∉ acc.variants.map Prod.fst := by
    intro hmem
    obtain ⟨pv, hpv, hfst⟩ := List.mem_map.mp hmem
    exact hvne pv hpv hfst
  have hafresh : refpos ∉ acc.adducts.map Prod.fst := by
    intro hmem
    obtain ⟨pa, hpa, hfst⟩ := List.mem_map.mp hmem
    exact hane pa hpa hfst
  have hnegpos : ("neg" : String) ≠ "pos" := by decide
  by_cases g1 : pb ∉ allowed_nucs ∨ nb ∉ allowed_nucs
  · simp only [process_pos, if_pos g1, Except.ok.injEq] at h
    subst h
    exact { tv_eq := hinv.tv_eq, tva_eq := hinv.tva_eq, var_lt := hvlt,
            add_lt := halt, pos_no_var := hinv.pos_no_var,
            var_ref := hinv.var_ref, add_ref := hinv.add_ref }
  · push_neg at g1
    obtain ⟨hpb, hnb⟩ := g1
    cases href : refseq ref_name refpos with
    | none => simp [process_pos, hpb, hnb, href] at h
    | some refbase =>
        by_cases g2 : refbase ∉ allowed_nucs
        · simp only [process_pos, href] at h
          rw [if_neg (by simp [hpb, hnb]), if_pos g2] at h
          simp only [Except.ok.injEq] at h
          subst h
          exact { tv_eq := hinv.tv_eq, tva_eq := hinv.tva_eq, var_lt := hvlt,
                  add_lt := halt, pos_no_var := hinv.pos_no_var,
                  var_ref := hinv.var_ref, add_ref := hinv.add_ref }
        · rw [not_not] at g2
          have hcr := complement_of_mem refbase g2
          have hcn := complement_of_mem nb hnb
          by_cases g3 : pb ≠ refbase ∧ nb ≠ refbase
          · by_cases g4 : pb = nb
            · -- case 4 of the table: confirmed variant
              simp only [process_pos, href] at h
              rw [if_neg (by simp [hpb, hnb]), if_neg (by simp [g2]),
                if_pos g3, if_pos g4] at h
              simp only [Except.ok.injEq] at h
              subst h
              refine { tv_eq := ?_, tva_eq := ?_, var_lt := ?_, add_lt := halt,
                       pos_no_var := ?_, var_ref := ?_, add_ref := hinv.add_ref }
              · show acc.total_variants + 1 = (insertAssoc acc.variants refpos _).length
                rw [length_insertAssoc_fresh _ _ _ hvfresh, hinv.tv_eq]
              · show acc.total_variants_and_adducts + 1 =
                  (insertAssoc acc.variants refpos _).length +
                    strand_only_count (insertAssoc acc.variants refpos _) acc.adducts
                rw [length_insertAssoc_fresh _ _ _ hvfresh,
                  strand_only_count_insert_var _ _ _ _ hane, hinv.tva_eq]
                omega
              · intro pv hpv
                rw [insertAssoc_eq_append_of_not_mem _ _ _ hvfresh] at hpv
                rcases List.mem_append.mp hpv with hpv | hpv
                · exact hvlt pv hpv
                · rw [List.mem_singleton.mp hpv]
                  exact Nat.lt_succ_self refpos
              · intro pa hpa hs
                rw [lookupAssoc_insertAssoc_ne _ _ _ _ (Ne.symm (hane pa hpa))]
                exact hinv.pos_no_var pa hpa hs
              · intro pv hpv
                rw [insertAssoc_eq_append_of_not_mem _ _ _ hvfresh] at hpv
                rcases List.mem_append.mp hpv with hpv | hpv
                · exact hinv.var_ref pv hpv
                · rw [List.mem_singleton.mp hpv]
                  exact href
            · -- case 5 of the table: variant plus negative-strand adduct
              simp only [process_pos, href, hcn, hcr] at h
              rw [if_neg (by simp [hpb, hnb]), if_neg (by simp [g2]),
                if_pos g3, if_neg g4] at h
              simp only [Except.ok.injEq] at h
              subst h
              refine { tv_eq := ?_, tva_eq := ?_, var_lt := ?_, add_lt := ?_,
                       pos_no_var := ?_, var_ref := ?_, add_ref := ?_ }
              · show acc.total_variants + 1 = (insertAssoc acc.variants refpos _).length
                rw [length_insertAssoc_fresh _ _ _ hvfresh, hinv.tv_eq]
              · show acc.total_variants_and_adducts + 1 =
                  (insertAssoc acc.variants refpos ⟨pb, refbase⟩).length +
                    strand_only_count (insertAssoc acc.variants refpos ⟨pb, refbase⟩)
                      (insertAssoc acc.adducts refpos
                        ⟨"neg", spec_complement nb, spec_complement refbase⟩)
                rw [length_insertAssoc_fresh _ _ _ hvfresh,
                  insertAssoc_eq_append_of_not_mem _ _ _ hafresh,
                  strand_only_count_append_adduct,
                  lookupAssoc_insertAssoc_self,
                  strand_only_count_insert_var _ _ _ _ hane, hinv.tva_eq]
                simp
                omega
              · intro pv hpv
                rw [insertAssoc_eq_append_of_not_mem _ _ _ hvfresh] at hpv
                rcases List.mem_append.mp hpv with hpv | hpv
                · exact hvlt pv hpv
                · rw [List.mem_singleton.mp hpv]
                  exact Nat.lt_succ_self refpos
              · intro pa hpa
                rw [insertAssoc_eq_append_of_not_mem _ _ _ hafresh] at hpa
                rcases List.mem_append.mp hpa with hpa | hpa
                · exact halt pa hpa
                · rw [List.mem_singleton.mp hpa]
                  exact Nat.lt_succ_self refpos
              · intro pa hpa hs
                rw [insertAssoc_eq_append_of_not_mem _ _ _ hafresh] at hpa
                rcases List.mem_append.mp hpa with hpa | hpa
                · rw [lookupAssoc_insertAssoc_ne _ _ _ _ (Ne.symm (hane pa hpa))]
                  exact hinv.pos_no_var pa hpa hs
                · rw [List.mem_singleton.mp hpa] at hs
                  exact absurd hs hnegpos
              · intro pv hpv
                rw [insertAssoc_eq_append_of_not_mem _ _ _ hvfresh] at hpv
                rcases List.mem_append.mp hpv with hpv | hpv
                · exact hinv.var_ref pv hpv
                · rw [List.mem_singleton.mp hpv]
                  exact href
              · intro pa hpa
                rw [insertAssoc_eq_append_of_not_mem _ _ _ hafresh] at hpa
                rcases List.mem_append.mp hpa with hpa | hpa
                · exact hinv.add_ref pa hpa
                · rw [List.mem_singleton.mp hpa]
                  exact Or.inr ⟨rfl, refbase, href, hcr⟩
          · by_cases g5 : pb ≠ refbase
            · -- case 6 of the table: positive-strand adduct
              simp only [process_pos, href] at h
              rw [if_neg (by simp [hpb, hnb]), if_neg (by simp [g2]),
                if_neg g3, if_pos g5] at h
              simp only [Except.ok.injEq] at h
              subst h
              have hvnone : lookupAssoc acc.variants refpos = none :=
                lookupAssoc_eq_none_of_not_mem _ _ hvfresh
              refine { tv_eq := hinv.tv_eq, tva_eq := ?_, var_lt := hvlt,
                       add_lt := ?_, pos_no_var := ?_, var_ref := hinv.var_ref,
                       add_ref := ?_ }
              · show acc.total_variants_and_adducts + 1 =
                  acc.variants.length + strand_only_count acc.variants
                    (insertAssoc acc.adducts refpos ⟨"pos", pb, refbase⟩)
                rw [insertAssoc_eq_append_of_not_mem _ _ _ hafresh,
                  strand_only_count_append_adduct, hvnone, hinv.tva_eq]
                simp
                omega
              · intro pa hpa
                rw [insertAssoc_eq_append_of_not_mem _ _ _ hafresh] at hpa
                rcases List.mem_append.mp hpa with hpa | hpa
                · exact halt pa hpa
                · rw [List.mem_singleton.mp hpa]
                  exact Nat.lt_succ_self refpos
              · intro pa hpa hs
                rw [insertAssoc_eq_append_of_not_mem _ _ _ hafresh] at hpa
                rcases List.mem_append.mp hpa with hpa | hpa
                · exact hinv.pos_no_var pa hpa hs
                · rw [List.mem_singleton.mp hpa]
                  exact hvnone
              · intro pa hpa
                rw [insertAssoc_eq_append_of_not_mem _ _ _ hafresh] at hpa
                rcases List.mem_append.mp hpa with hpa | hpa
                · exact hinv.add_ref pa hpa
                · rw [List.mem_singleton.mp hpa]
                  exact Or.inl ⟨rfl, href⟩
            · by_cases g6 : nb ≠ refbase
              · -- case 7 of the table: negative-strand adduct
                simp only [process_pos, href, hcn, hcr] at h
                rw [if_neg (by simp [hpb, hnb]), if_neg (by simp [g2]),
                  if_neg g3, if_neg g5, if_pos g6] at h
                simp only [Except.ok.injEq] at h
                subst h
                have hvnone : lookupAssoc acc.variants refpos = none :=
                  lookupAssoc_eq_none_of_not_mem _ _ hvfresh
                refine { tv_eq := hinv.tv_eq, tva_eq := ?_, var_lt := hvlt,
                         add_lt := ?_, pos_no_var := ?_, var_ref := hinv.var_ref,
                         add_ref := ?_ }
                · show acc.total_variants_and_adducts + 1 =
                    acc.variants.length + strand_only_count acc.variants
                      (insertAssoc acc.adducts refpos
                        ⟨"neg", spec_complement nb, spec_complement refbase⟩)
                  rw [insertAssoc_eq_append_of_not_mem _ _ _ hafresh,
                    strand_only_count_append_adduct, hvnone, hinv.tva_eq]
                  simp
                  omega
                · intro pa hpa
                  rw [insertAssoc_eq_append_of_not_mem _ _ _ hafresh] at hpa
                  rcases List.mem_append.mp hpa with hpa | hpa
                  · exact halt pa hpa
                  · rw [List.mem_singleton.mp hpa]
                    exact Nat.lt_succ_self refpos
                · intro pa hpa hs
                  rw [insertAssoc_eq_append_of_not_mem _ _ _ hafresh] at hpa
                  rcases List.mem_append.mp hpa with hpa | hpa
                  · exact hinv.pos_no_var pa hpa hs
                  · rw [List.mem_singleton.mp hpa] at hs
                    exact absurd hs hnegpos
                · intro pa hpa
                  rw [insertAssoc_eq_append_of_not_mem _ _ _ hafresh] at hpa
                  rcases List.mem_append.mp hpa with hpa | hpa
                  · exact hinv.add_ref pa hpa
                  · rw [List.mem_singleton.mp hpa]
                    exact Or.inr ⟨rfl, refbase, href, hcr⟩
              · -- case 3 of the table: both strands match the reference
                simp only [process_pos, href] at h
                rw [if_neg (by simp [hpb, hnb]), if_neg (by simp [g2]),
                  if_neg g3, if_neg g5, if_neg g6] at h
                simp only [Except.ok.injEq] at h
                subst h
                exact { tv_eq := hinv.tv_eq, tva_eq := hinv.tva_eq,
                        var_lt := hvlt, add_lt := halt,
                        pos_no_var := hinv.pos_no_var,
                        var_ref := hinv.var_ref, add_ref := hinv.add_ref }

/-! ## The invariant is preserved by the whole loop -/

theorem process_all_inv {ref_name : String} {refseq : RefSeq}
    {start_pos end_pos : Nat} :
    ∀ (l : List (Nat × Char × Char)) (acc acc' : MergeAcc) (bound : Nat),
      (l.map (fun t => t.1)).Pairwise (· < ·) →
      (∀ t ∈ l, bound ≤ t.1) →
      AccInv ref_name refseq bound acc →
      process_all ref_name refseq start_pos end_pos acc l = .ok acc' →
      ∃ b, AccInv ref_name refseq b acc' := by
  intro l
  induction l with
  | nil =>
      intro acc acc' bound _ _ hinv h
      simp only [process_all, Except.ok.injEq] at h
      exact ⟨bound, h ▸ hinv⟩
  | cons t rest ih =>
      intro acc acc' bound hpw hge hinv h
      obtain ⟨rp, pb, nb⟩ := t
      rw [List.map_cons, List.pairwise_cons] at hpw
      simp only [process_all] at h
      cases hp : process_pos ref_name refseq start_pos end_pos acc rp pb nb with
      | error e => rw [hp] at h; simp at h
      | ok acc1 =>
          rw [hp] at h
          have hinv1 := process_pos_inv hinv (hge _ (List.mem_cons_self _ _)) hp
          refine ih acc1 acc' (rp + 1) hpw.2 ?_ hinv1 h
          intro t ht
          exact Nat.succ_le_of_lt
            (hpw.1 t.1 (List.mem_map_of_mem (fun t => t.1) ht))

theorem mem_range'_le : ∀ (n a : Nat), ∀ x ∈ List.range' a n, a ≤ x := by
  intro n
  induction n with
  | zero =>
      intro a x hx
      simp [List.range'] at hx
  | succ n ih =>
      intro a x hx
      rw [List.range'] at hx
      rcases List.mem_cons.mp hx with rfl | hx
      · exact Nat.le_refl x
      · exact Nat.le_trans (Nat.le_succ a) (ih (a + 1) x hx)

theorem range'_pairwise_lt : ∀ (n a : Nat), (List.range' a n).Pairwise (· < ·) := by
  intro n
  induction n with
  | zero =>
      intro a
      simp [List.range']
  | succ n ih =>
      intro a
      rw [List.range']
      exact List.Pairwise.cons
        (fun b hb => Nat.lt_of_lt_of_le (Nat.lt_succ_self a) (mem_range'_le n (a + 1) b hb))
        (ih (a + 1))

theorem zip3_fst_sublist {α β γ : Type} :
    ∀ (r : List α) (p : List β) (n : List γ),
      ((zip3 r p n).map (fun t => t.1)).Sublist r := by
  intro r
  induction r with
  | nil =>
      intro p n
      cases p <;> cases n <;> simp [zip3]
  | cons a as ih =>
      intro p n
      cases p with
      | nil => simp [zip3]
      | cons b bs =>
          cases n with
          | nil => simp [zip3]
          | cons c cs =>
              simpa [zip3] using (ih bs cs).cons₂ a

/-- The final DSC of a successful `merge_strands` satisfies the loop
invariant (packaged back into a `MergeAcc` for reuse). -/
theorem merge_strands_acc_inv (p n : SscStrand) (refseq : RefSeq)
    (bp0 bp1 : BasePositions) (d : Dsc)
    (h : merge_strands (some p) (some n) refseq bp0 = .ok (d, bp1)) :
    ∃ b, AccInv p.ref_name refseq b
      { nbases := d.nbases, adducts := d.adducts, variants := d.variants,
        total_variants_and_adducts := d.total_variants_and_adducts,
        total_variants := d.total_variants, cons_list := d.cons, bp := bp1 } := by
  simp only [merge_strands] at h
  split at h
  · exact absurd h (by simp)
  · rename_i acc heq
    simp only [Except.ok.injEq, Prod.mk.injEq] at h
    obtain ⟨hd, hbp⟩ := h
    subst hd
    subst hbp
    have hinit : AccInv p.ref_name refseq (max p.start n.start)
        { nbases := 0, adducts := [], variants := [],
          total_variants_and_adducts := 0, total_variants := 0,
          cons_list := [], bp := bp0 } := by
      refine { tv_eq := rfl, tva_eq := rfl, var_lt := ?_, add_lt := ?_,
               pos_no_var := ?_, var_ref := ?_, add_ref := ?_ } <;>
        intro x hx <;> simp at hx
    have hpw : ((zip3 (List.range' (max p.start n.start)
        (min p.stop n.stop + 1 - max p.start n.start))
          ((pySlice p.cons ((p.start : Int) - ((max p.start n.start : Nat) : Int))
            ((p.cons.length : Int) - ((p.stop : Int) - ((min p.stop n.stop : Nat) : Int)))).map
              Char.toUpper)
          ((pySlice n.cons ((n.start : Int) - ((max p.start n.start : Nat) : Int))
            ((n.cons.length : Int) - ((n.stop : Int) - ((min p.stop n.stop : Nat) : Int)))).map
              Char.toUpper)).map (fun t => t.1)).Pairwise (· < ·) :=
      (range'_pairwise_lt _ _).sublist (zip3_fst_sublist _ _ _)
    refine process_all_inv _ _ _ _ hpw ?_ hinit heq
    intro t ht
    exact mem_range'_le _ _ t.1
      ((zip3_fst_sublist _ _ _).subset (List.mem_map_of_mem (fun t => t.1) ht))

/-! ## Claim C2 -/

/-- Claim C2: for every family in the final DSC map, `total_variants`
equals the number of entries of the variants map, and
`total_variants_and_adducts` equals `|variants|` plus the number of
adducts recorded at positions that carry no variant (the strand-only
mismatches of cases 6 and 7); a case-5 position, which records both a
variant and an adduct at the same position, therefore increments
`total_variants_and_adducts` exactly once. -/
theorem claim_C2_totals (p n : SscStrand) (refseq : RefSeq)
    (bp0 bp1 : BasePositions) (d : Dsc)
    (h : merge_strands (some p) (some n) refseq bp0 = .ok (d, bp1)) :
    d.total_variants = d.variants.length ∧
    d.total_variants_and_adducts =
      d.variants.length + strand_only_count d.variants d.adducts := by
  obtain ⟨b, hinv⟩ := merge_strands_acc_inv p n refseq bp0 bp1 d h
  exact ⟨hinv.tv_eq, hinv.tva_eq⟩

/-- Witness for C2: the counter equalities hold on a concrete family with
a case-5 position (refpos 101) and a case-6 position (refpos 103). -/
theorem claim_C2_witness :
    w2_dsc.total_variants = w2_dsc.variants.length ∧
    w2_dsc.total_variants_and_adducts =
      w2_dsc.variants.length + strand_only_count w2_dsc.variants w2_dsc.adducts :=
  claim_C2_totals w2_pos w2_neg rs_acgt ⟨[], [], []⟩ w2_bp w2_dsc (by rfl)

/-! ## Claim C5 -/

/-- Counterexample to claim C5 as stated: in the spec's own scenario 5
(positive strand "ATGT", negative strand "AGGT" against reference "ACGT"),
reference position 101 is recorded in BOTH the variants map and the
adducts map of the family, so `variants ∩ adducts ≠ ∅`. -/
theorem claim_C5_counterexample :
    ((lookupAssoc c5_dsc.variants 101).isSome &&
      (lookupAssoc c5_dsc.adducts 101).isSome) = true := by decide

/-- Claim C5 as amended: the variants and adducts maps of a family need not
be disjoint; a position can lie in both only for a case-5 classification,
whose adduct is recorded on the negative strand.  Equivalently: every
adduct recorded at a position that also carries a variant has
`strand = "neg"` (positive-strand adducts are disjoint from variants). -/
theorem claim_C5_amended (p n : SscStrand) (refseq : RefSeq)
    (bp0 bp1 : BasePositions) (d : Dsc)
    (h : merge_strands (some p) (some n) refseq bp0 = .ok (d, bp1)) :
    ∀ pa ∈ d.adducts, (lookupAssoc d.variants pa.1).isSome = true →
      pa.2.strand = "neg" := by
  obtain ⟨b, hinv⟩ := merge_strands_acc_inv p n refseq bp0 bp1 d h
  intro pa hpa hsome
  rcases hinv.add_ref pa hpa with ⟨hs, _⟩ | ⟨hs, _⟩
  · rw [hinv.pos_no_var pa hpa hs] at hsome
    simp at hsome
  · exact hs

/-- Witness for the amended C5, at the concrete case-5 family. -/
theorem claim_C5_witness :
    ((101 : Nat), ({ strand := "neg", var := 'C', ref := 'G' } : DscAdduct)).2.strand =
      "neg" :=
  claim_C5_amended c5_pos c5_neg rs_acgt ⟨[], [], []⟩
    (bp_of (merge_strands (some c5_pos) (some c5_neg) rs_acgt ⟨[], [], []⟩)) c5_dsc
    (by rfl) (101, ⟨"neg", 'C', 'G'⟩) (by decide) (by decide)

/-! ## Claim C6 -/

/-- Counterexample to claim C6 as stated: in the spec's own scenario 4
(positive strand "ACGT", negative strand "ACCT" against reference "ACGT"),
the family records an adduct at position 102 whose stored `ref` field is
'C', the COMPLEMENT of the cached reference base 'G' — not the cached
reference base itself. -/
theorem claim_C6_counterexample :
    (lookupAssoc c6_dsc.adducts 102).isSome = true ∧
    (((lookupAssoc c6_dsc.adducts 102).map DscAdduct.ref) ==
      rs_acgt "chr1" 102) = false := ⟨by decide, by decide⟩

/-- Claim C6 as amended: the `ref` field stored with a variant equals the
cached reference base, and likewise for a positive-strand adduct; for a
negative-strand adduct the stored `ref` field is the `complement` of the
cached reference base. -/
theorem claim_C6_amended (p n : SscStrand) (refseq : RefSeq)
    (bp0 bp1 : BasePositions) (d : Dsc)
    (h : merge_strands (some p) (some n) refseq bp0 = .ok (d, bp1)) :
    (∀ pv ∈ d.variants, refseq p.ref_name pv.1 = some pv.2.ref) ∧
    (∀ pa ∈ d.adducts, pa.2.strand = "pos" →
      refseq p.ref_name pa.1 = some pa.2.ref) ∧
    (∀ pa ∈ d.adducts, pa.2.strand = "neg" →
      ∃ r, refseq p.ref_name pa.1 = some r ∧ complement r = some pa.2.ref) := by
  obtain ⟨b, hinv⟩ := merge_strands_acc_inv p n refseq bp0 bp1 d h
  refine ⟨hinv.var_ref, ?_, ?_⟩
  · intro pa hpa hs
    rcases hinv.add_ref pa hpa with ⟨_, h2⟩ | ⟨hs2, _⟩
    · exact h2
    · rw [hs] at hs2
      exact absurd hs2 (by decide)
  · intro pa hpa hs
    rcases hinv.add_ref pa hpa with ⟨hs2, _⟩ | ⟨_, h2⟩
    · rw [hs] at hs2
      exact absurd hs2 (by decide)
    · exact h2

/-- Witness for the amended C6, at a concrete family with a pos-strand
adduct at position 103 whose stored ref base 'T' matches the cache. -/
theorem claim_C6_witness : rs_acgt "chr1" 103 = some 'T' :=
  (claim_C6_amended w2_pos w2_neg rs_acgt ⟨[], [], []⟩ w6_bp w6_dsc (by rfl)).2.1
    (103, ⟨"pos", 'A', 'T'⟩) (by decide) (by decide)

/-! ## Claim C1 -/

/-- Claim C1: at every position where the trimmed positive-strand base `P`,
the trimmed negative-strand base `N`, and the reference base `R` are all in
A/T/C/G, the classification step of `merge_strands` records exactly what
the specification's table prescribes: a variant `{var := P, ref := R}` when
both strands mismatch the reference; additionally an adduct
`{strand := "neg", var := complement N, ref := complement R}` when the two
mismatching strand bases differ; a positive-strand adduct
`{strand := "pos", var := P, ref := R}` when only the positive strand
mismatches; a negative-strand adduct when only the negative strand
mismatches; and nothing when both strands match. -/
theorem claim_C1_classification_table
    (ref_name : String) (refseq : RefSeq) (start_pos end_pos refpos : Nat)
    (acc : MergeAcc) (P N R : Char)
    (hP : P ∈ allowed_nucs) (hN : N ∈ allowed_nucs) (hR : R ∈ allowed_nucs)
    (href : refseq ref_name refpos = some R) :
    (process_pos ref_name refseq start_pos end_pos acc refpos P N).map
        MergeAcc.variants =
      .ok (match spec_variant_of P N R with
        | some v => insertAssoc acc.variants refpos v
        | none => acc.variants) ∧
    (process_pos ref_name refseq start_pos end_pos acc refpos P N).map
        MergeAcc.adducts =
      .ok (match spec_adduct_of P N R with
        | some a => insertAssoc acc.adducts refpos a
        | none => acc.adducts) := by
  have hcN := complement_of_mem N hN
  have hcR := complement_of_mem R hR
  by_cases hPR : P = R <;> by_cases hNR : N = R <;> by_cases hPN : P = N <;>
    exact ⟨by simp [process_pos, Except.map, href, hcN, hcR, hP, hN, hR,
             hPR, hNR, hPN, spec_variant_of, spec_adduct_of],
           by simp [process_pos, Except.map, href, hcN, hcR, hP, hN, hR,
             hPR, hNR, hPN, spec_variant_of, spec_adduct_of]⟩

/-- Witness for C1, at the spec's scenario-5 position: `P = 'T'`,
`N = 'G'`, `R = 'C'` at refpos 101 in the span [100, 103]. -/
theorem claim_C1_witness :
    (process_pos "chr1" w1_refseq 100 103 empty_acc 101 'T' 'G').map
        MergeAcc.variants =
      .ok (match spec_variant_of 'T' 'G' 'C' with
        | some v => insertAssoc empty_acc.variants 101 v
        | none => empty_acc.variants) ∧
    (process_pos "chr1" w1_refseq 100 103 empty_acc 101 'T' 'G').map
        MergeAcc.adducts =
      .ok (match spec_adduct_of 'T' 'G' 'C' with
        | some a => insertAssoc empty_acc.adducts 101 a
        | none => empty_acc.adducts) :=
  claim_C1_classification_table "chr1" w1_refseq 100 103 101 empty_acc 'T' 'G' 'C'
    (by decide) (by decide) (by decide) (by decide)

/-! ## Claim C10 -/

theorem process_pos_error_shape {ref_name : String} {refseq : RefSeq}
    {start_pos end_pos : Nat} {acc : MergeAcc} {refpos : Nat} {pb nb : Char}
    {e : PyErr}
    (h : process_pos ref_name refseq start_pos end_pos acc refpos pb nb = .error e) :
    e = .keyErrorRefseq ref_name refpos := by
  by_cases g1 : pb ∉ allowed_nucs ∨ nb ∉ allowed_nucs
  · simp [process_pos, if_pos g1] at h
  · push_neg at g1
    obtain ⟨hpb, hnb⟩ := g1
    have hcn := complement_of_mem nb hnb
    cases href : refseq ref_name refpos with
    | none =>
        simp [process_pos, href, hpb, hnb] at h
        exact h.symm
    | some refbase =>
        by_cases g2 : refbase ∈ allowed_nucs
        · have hcr := complement_of_mem refbase g2
          by_cases h3 : pb = refbase <;> by_cases h4 : nb = refbase <;>
            by_cases h5 : pb = nb <;>
            simp [process_pos, href, hcn, hcr, hpb, hnb, g2, h3, h4, h5] at h
        · simp [process_pos, href, hpb, hnb, g2] at h

theorem process_all_error_shape {ref_name : String} {refseq : RefSeq}
    {start_pos end_pos : Nat} :
    ∀ (l : List (Nat × Char × Char)) (acc : MergeAcc) (e : PyErr),
      process_all ref_name refseq start_pos end_pos acc l = .error e →
      ∃ rp, e = .keyErrorRefseq ref_name rp := by
  intro l
  induction l with
  | nil =>
      intro acc e h
      simp [process_all] at h
  | cons t rest ih =>
      intro acc e h
      obtain ⟨rp, pb, nb⟩ := t
      simp only [process_all] at h
      cases hp : process_pos ref_name refseq start_pos end_pos acc rp pb nb with
      | error e1 =>
          rw [hp] at h
          simp only [Except.error.injEq] at h
          exact ⟨rp, h ▸ process_pos_error_shape hp⟩
      | ok acc1 =>
          rw [hp] at h
          exact ih acc1 e h

/-- Claim C10: the partial function `complement` (defined only on A/T/C/G)
is only ever applied to bases already guarded by the `allowed_nucs` checks,
so its failure branch (a `KeyError`) is unreachable during `merge_strands`:
no run of `merge_strands` ever aborts with a complement KeyError. -/
theorem claim_C10_complement_guarded (posS negS : Option SscStrand)
    (refseq : RefSeq) (bp : BasePositions) :
    is_complement_error (merge_strands posS negS refseq bp) = false := by
  cases posS with
  | none => cases negS <;> rfl
  | some p =>
      cases negS with
      | none => rfl
      | some n =>
          simp only [merge_strands]
          split
          · rename_i e heq
            obtain ⟨rp, he⟩ := process_all_error_shape _ _ _ heq
            subst he
            rfl
          · rfl

/-! ## Claim C3 -/

/-- Claim C3 is contradicted by the code: on a family whose positive strand
spans [5, 10] and whose negative strand spans [0, 10] (both pure
reference), the duplex span is [5, 10] so the consensus should have length
6; but the left-trim slice `cons[strand.start - start_pos : ...]` uses the
NEGATIVE index -5 for the negative strand, which Python resolves from the
end of the string, so the trimmed negative strand has length 5 (and is
misaligned by one position) and the duplex consensus ends up with length 5
≠ end − start + 1 = 6. -/
theorem claim_C3_trim_bug_eval :
    (merge_strands (some c3_pos) (some c3_neg) c3_refseq ⟨[], [], []⟩).map
      (fun r => (r.1.stop + 1 - r.1.start, r.1.cons.length)) =
    .ok ((6 : Nat), (5 : Nat)) := rfl

/-! ## Claim C4 -/

/-- Claim C4 is contradicted by the code on both of its halves: a
family-strand whose forward read is missing does not get dropped with a log
entry — `strand_reads["fwd"]["ref_name"]` raises `KeyError` on the empty
dict; and downstream processing does not tolerate a dropped strand — when
one strand merged and the other was dropped, `merge_strands` evaluates
`max(None, int)`, raising `TypeError`, instead of leaving the family out of
the DSC map and continuing. -/
theorem claim_C4_missing_strand_crash_eval :
    merge_read_pair none (some c4_rev) rs_acgt =
      .error (.keyErrorField "ref_name") ∧
    merge_strands (some c4_pos) none rs_acgt ⟨[], [], []⟩ =
      .error .typeErrorMaxNone :=
  ⟨rfl, rfl⟩

/-! ## Claim C7 -/

theorem add_variants_lookup (ref_name : String) (refseq : RefSeq)
    (readpos_of : Nat → Int) :
    ∀ (vs : List (Nat × Char)) (acc out : List (Nat × SscVariant)),
      (vs.map Prod.fst).Nodup →
      add_variants ref_name refseq readpos_of vs acc = .ok out →
      ∀ p : Nat,
        (∀ b, lookupAssoc vs p = some b →
          ∃ r, refseq ref_name p = some r ∧
            lookupAssoc out p = some ⟨readpos_of p, b, r⟩) ∧
        (lookupAssoc vs p = none → lookupAssoc out p = lookupAssoc acc p) := by
  intro vs
  induction vs with
  | nil =>
      intro acc out _ h p
      simp only [add_variants, Except.ok.injEq] at h
      subst h
      exact ⟨fun b hb => by simp [lookupAssoc] at hb, fun _ => rfl⟩
  | cons hd rest ih =>
      intro acc out hnd h p
      obtain ⟨q, b0⟩ := hd
      rw [List.map_cons, List.nodup_cons] at hnd
      obtain ⟨hq, hnd'⟩ := hnd
      simp only [add_variants] at h
      cases hrq : refseq ref_name q with
      | none => rw [hrq] at h; simp at h
      | some r0 =>
          simp only [hrq] at h
          constructor
          · intro b hb
            by_cases hpq : q = p
            · subst hpq
              simp [lookupAssoc] at hb
              have hrest : lookupAssoc rest q = none :=
                lookupAssoc_eq_none_of_not_mem rest q hq
              have hout := (ih _ _ hnd' h q).2 hrest
              rw [hout, lookupAssoc_insertAssoc_self]
              rcases hb with rfl
              exact ⟨r0, hrq, rfl⟩
            · simp only [lookupAssoc, if_neg hpq] at hb
              exact (ih _ _ hnd' h p).1 b hb
          · intro hnone
            by_cases hpq : q = p
            · subst hpq
              simp [lookupAssoc] at hnone
            · simp only [lookupAssoc, if_neg hpq] at hnone
              rw [(ih _ _ hnd' h p).2 hnone]
              exact lookupAssoc_insertAssoc_ne acc q p _ hpq

/-- Claim C7: when `merge_read_pair` succeeds, the strand-consensus variant
map is the union of the forward and reverse variant maps; a position
present in both gets the reverse entry (rev overwrites fwd); an entry that
came from the reverse read stores readpos `(rev.end − refpos) + 1`, one
that came from the forward read stores `(refpos − fwd.start) + 1`, and each
entry's ref base is the cached reference base. -/
theorem claim_C7_variant_union (f r : ReadDetails) (refseq : RefSeq)
    (s : SscStrand)
    (hf : (f.variants.map Prod.fst).Nodup) (hr : (r.variants.map Prod.fst).Nodup)
    (h : merge_read_pair (some f) (some r) refseq = .ok (.merged s)) :
    ∀ p : Nat, lookupAssoc s.variants p =
      (match lookupAssoc r.variants p with
       | some b => (refseq f.ref_name p).map
           (fun rb => ⟨(r.stop : Int) - (p : Int) + 1, b, rb⟩)
       | none =>
         match lookupAssoc f.variants p with
         | some b => (refseq f.ref_name p).map
             (fun rb => ⟨(p : Int) - (f.start : Int) + 1, b, rb⟩)
         | none => none) := by
  simp only [merge_read_pair] at h
  by_cases hc : (Option.map ReadDetails.ref_name (some r)) ≠ some f.ref_name
  · rw [if_pos hc] at h
    simp at h
  · rw [if_neg hc] at h
    by_cases ho : f.start ≥ r.stop
    · rw [if_pos ho] at h
      simp at h
    · rw [if_neg ho] at h
      cases h1 : add_variants f.ref_name refseq
          (fun refpos => (refpos : Int) - (f.start : Int) + 1) f.variants [] with
      | error e => simp only [h1] at h; simp at h
      | ok v1 =>
          simp only [h1] at h
          cases h2 : add_variants f.ref_name refseq
              (fun refpos => (r.stop : Int) - (refpos : Int) + 1) r.variants v1 with
          | error e => simp only [h2] at h; simp at h
          | ok v2 =>
              simp only [h2] at h
              simp only [Except.ok.injEq, PairOutcome.merged.injEq] at h
              intro p
              have hs : s.variants = v2 := by rw [← h]
              rw [hs]
              cases hrl : lookupAssoc r.variants p with
              | some b =>
                  obtain ⟨rb, hrb, hlk⟩ :=
                    (add_variants_lookup _ _ _ _ _ _ hr h2 p).1 b hrl
                  rw [hlk, hrb]
                  rfl
              | none =>
                  cases hfl : lookupAssoc f.variants p with
                  | some b =>
                      obtain ⟨rb, hrb, hlk⟩ :=
                        (add_variants_lookup _ _ _ _ _ _ hf h1 p).1 b hfl
                      rw [(add_variants_lookup _ _ _ _ _ _ hr h2 p).2 hrl,
                        hlk, hrb]
                      rfl
                  | none =>
                      rw [(add_variants_lookup _ _ _ _ _ _ hr h2 p).2 hrl,
                        (add_variants_lookup _ _ _ _ _ _ hf h1 p).2 hfl]
                      rfl

/-- Witness for C7: position 101 appears in both reads of the pair; the
retained entry is the reverse one, with readpos `(103 − 101) + 1 = 3`. -/
theorem claim_C7_witness :
    lookupAssoc w7_ssc.variants 101 =
      (match lookupAssoc w7_rev.variants 101 with
       | some b => (rs_acgt w7_fwd.ref_name 101).map
           (fun rb => ⟨(w7_rev.stop : Int) - ((101 : Nat) : Int) + 1, b, rb⟩)
       | none =>
         match lookupAssoc w7_fwd.variants 101 with
         | some b => (rs_acgt w7_fwd.ref_name 101).map
             (fun rb => ⟨((101 : Nat) : Int) - (w7_fwd.start : Int) + 1, b, rb⟩)
         | none => none) :=
  claim_C7_variant_union w7_fwd w7_rev rs_acgt w7_ssc (by decide) (by decide)
    (by rfl) 101

/-! ## Claim C8 -/

/-- Claim C8: for any threshold, `keep_families` is exactly the set of
family ids whose chosen filter metric is at most the threshold, a `none`
threshold keeps every family, and the filter is monotone in the
threshold. -/
theorem claim_C8_keep_families (info : List (String × Dsc)) (fo : FilterOn)
    (fid : String) (d : Dsc) (t1 t2 : Nat)
    (hmem : (fid, d) ∈ info) (hnd : (info.map Prod.fst).Nodup)
    (hle : t1 ≤ t2) :
    fid ∈ keep_families info fo none ∧
    (fid ∈ keep_families info fo (some t1) ↔ filter_metric d fo ≤ t1) ∧
    (∀ g, g ∈ keep_families info fo (some t1) →
      g ∈ keep_families info fo (some t2)) := by
  refine ⟨?_, ⟨?_, ?_⟩, ?_⟩
  · unfold keep_families
    refine List.mem_map.mpr ⟨(fid, d), ?_, rfl⟩
    rw [List.mem_filter]
    exact ⟨hmem, rfl⟩
  · intro hk
    unfold keep_families at hk
    obtain ⟨⟨fid1, d1⟩, hmem1, hfst⟩ := List.mem_map.mp hk
    rw [List.mem_filter] at hmem1
    obtain ⟨hmem2, hpred⟩ := hmem1
    have hfid : fid1 = fid := hfst
    subst hfid
    have hd : d1 = d := assoc_value_unique info hnd hmem2 hmem
    subst hd
    simpa using hpred
  · intro hle1
    unfold keep_families
    refine List.mem_map.mpr ⟨(fid, d), ?_, rfl⟩
    rw [List.mem_filter]
    exact ⟨hmem, by simpa using hle1⟩
  · intro g hk
    unfold keep_families at hk ⊢
    obtain ⟨⟨g1, d1⟩, hmem1, hfst⟩ := List.mem_map.mp hk
    rw [List.mem_filter] at hmem1
    obtain ⟨hmem2, hpred⟩ := hmem1
    refine List.mem_map.mpr ⟨(g1, d1), ?_, hfst⟩
    rw [List.mem_filter]
    refine ⟨hmem2, ?_⟩
    simp only [decide_eq_true_eq] at hpred ⊢
    exact le_trans hpred hle

/-- Witness for C8: in a two-family map, family F1 (zero variants) is kept
at threshold 0 exactly because its metric is ≤ 0. -/
theorem claim_C8_witness :
    ("F1" ∈ keep_families w8_info .total_variants (some 0)) ↔
      filter_metric w8_d0 .total_variants ≤ 0 :=
  (claim_C8_keep_families w8_info .total_variants "F1" w8_d0 0 3
    (by decide) (by decide) (by decide)).2.1

/-! ## Claim C9 -/

theorem foldl_tally_variant_adducts (rn : String) :
    ∀ (l : List (Nat × DscVariant)) (acc : SummaryCounts),
      (l.foldl (tally_variant rn) acc).adducts = acc.adducts := by
  intro l
  induction l with
  | nil => intro acc; rfl
  | cons x xs ih =>
      intro acc
      rw [List.foldl_cons, ih]
      rfl

theorem foldl_tally_adduct_adducts (rn : String) :
    ∀ (l : List (Nat × DscAdduct)) (acc : SummaryCounts),
      (l.foldl (tally_adduct rn) acc).adducts = acc.adducts + l.length := by
  intro l
  induction l with
  | nil => intro acc; rfl
  | cons x xs ih =>
      intro acc
      rw [List.foldl_cons, ih]
      show acc.adducts + 1 + xs.length = acc.adducts + (xs.length + 1)
      omega

theorem tally_family_adducts (acc : SummaryCounts) (d : Dsc) :
    (tally_family acc d).adducts = acc.adducts + 2 * d.adducts.length := by
  simp only [tally_family]
  rw [foldl_tally_adduct_adducts, foldl_tally_variant_adducts]
  show acc.adducts + d.adducts.length + d.adducts.length =
    acc.adducts + 2 * d.adducts.length
  omega

theorem chr_get_bump_chr (m : List (String × ChrEntry)) (c c' : String)
    (f : ChrEntry → ChrEntry) :
    chr_get (bump_chr m c f) c' =
      if c = c' then f (chr_get m c) else chr_get m c' := by
  unfold bump_chr chr_get
  by_cases h : c = c'
  · subst h
    rw [lookupAssoc_insertAssoc_self]
    simp
  · rw [lookupAssoc_insertAssoc_ne _ _ _ _ h, if_neg h]

theorem foldl_tally_variant_chr (rn c : String) :
    ∀ (l : List (Nat × DscVariant)) (acc : SummaryCounts),
      (chr_get (l.foldl (tally_variant rn) acc).by_chr c).adducts =
        (chr_get acc.by_chr c).adducts := by
  intro l
  induction l with
  | nil => intro acc; rfl
  | cons x xs ih =>
      intro acc
      rw [List.foldl_cons, ih]
      simp only [tally_variant, chr_get_bump_chr]
      by_cases h : rn = c <;> simp [h]

theorem foldl_tally_adduct_chr (rn c : String) :
    ∀ (l : List (Nat × DscAdduct)) (acc : SummaryCounts),
      (chr_get (l.foldl (tally_adduct rn) acc).by_chr c).adducts =
        (chr_get acc.by_chr c).adducts + (if rn = c then l.length else 0) := by
  intro l
  induction l with
  | nil => intro acc; simp
  | cons x xs ih =>
      intro acc
      rw [List.foldl_cons, ih]
      simp only [tally_adduct, chr_get_bump_chr]
      by_cases h : rn = c <;> simp [h] <;> omega

theorem tally_family_chr_adducts (acc : SummaryCounts) (d : Dsc) (c : String) :
    (chr_get (tally_family acc d).by_chr c).adducts =
      (chr_get acc.by_chr c).adducts +
        (if d.ref_name = c then 2 * d.adducts.length else 0) := by
  simp only [tally_family]
  rw [foldl_tally_adduct_chr, foldl_tally_variant_chr]
  simp only [chr_get_bump_chr]
  by_cases h : d.ref_name = c <;> simp [h] <;> omega

theorem format_summary_adducts_total (keep : List String) :
    ∀ (info : List (String × Dsc)) (acc : SummaryCounts),
      (info.foldl (fun acc fd =>
        if fd.1 ∈ keep then tally_family acc fd.2 else acc) acc).adducts =
        acc.adducts + 2 * ((info.filter (fun fd => decide (fd.1 ∈ keep))).map
          (fun fd => fd.2.adducts.length)).sum := by
  intro info
  induction info with
  | nil => intro acc; simp
  | cons fd rest ih =>
      intro acc
      rw [List.foldl_cons]
      by_cases h : fd.1 ∈ keep
      · rw [if_pos h, ih, tally_family_adducts]
        simp [List.filter_cons, h]
        omega
      · rw [if_neg h, ih]
        simp [List.filter_cons, h]

theorem format_summary_adducts_chr (keep : List String) (c : String) :
    ∀ (info : List (String × Dsc)) (acc : SummaryCounts),
      (chr_get (info.foldl (fun acc fd =>
        if fd.1 ∈ keep then tally_family acc fd.2 else acc) acc).by_chr c).adducts =
        (chr_get acc.by_chr c).adducts +
          2 * ((info.filter (fun fd =>
            decide (fd.1 ∈ keep) && decide (fd.2.ref_name = c))).map
              (fun fd => fd.2.adducts.length)).sum := by
  intro info
  induction info with
  | nil => intro acc; simp
  | cons fd rest ih =>
      intro acc
      rw [List.foldl_cons]
      by_cases h : fd.1 ∈ keep
      · rw [if_pos h, ih, tally_family_chr_adducts]
        by_cases h2 : fd.2.ref_name = c <;>
          simp [List.filter_cons, h, h2] <;> omega
      · rw [if_neg h, ih]
        simp [List.filter_cons, h]

/-- Claim C9: in `format_summary`, for any set of kept families, the
overall `adducts` count (and each per-contig `adducts` count) equals
exactly twice the sum over kept families of the size of the family's
adducts map, because the counter is incremented once by `len(adducts)` per
family and once more per entry while iterating the per-family adducts
map. -/
theorem claim_C9_adduct_double_count (info : List (String × Dsc))
    (keep : List String) :
    (format_summary info keep).adducts =
      2 * ((info.filter (fun fd => decide (fd.1 ∈ keep))).map
        (fun fd => fd.2.adducts.length)).sum ∧
    ∀ c : String,
      (chr_get (format_summary info keep).by_chr c).adducts =
        2 * ((info.filter (fun fd =>
          decide (fd.1 ∈ keep) && decide (fd.2.ref_name = c))).map
            (fun fd => fd.2.adducts.length)).sum := by
  constructor
  · rw [format_summary, format_summary_adducts_total]
    simp
  · intro c
    rw [format_summary, format_summary_adducts_chr]
    simp [chr_get, lookupAssoc]

end ParseSSC
